import Mathlib

/-!
# Verification of the two-pass basic-computer assembler

Shallow embedding of the assembler in `assembler.py`.  A source line is the
list of its whitespace-separated lowercase tokens (the form stored in
`self.__asm` after `read_code`).  Python dictionaries are modelled as
association lists whose insertion (`dinsert`) overwrites the value at an
existing key in place and appends a fresh key at the end, exactly the
observable behaviour of dict assignment; `lookup` returns the value at the
first occurrence of a key (keys of a dict are unique, an invariant `dinsert`
preserves).  Fallible operations (list indexing that can raise IndexError,
dict access that can raise KeyError, numeric parsing that can raise
ValueError) are modelled with `Option`, `none` standing for a raised
exception that aborts the pass.
-/

/-- A tokenized source line: `self.__asm[i]`. -/
abbrev Line : Type := List String

/-- A Python dict from strings to strings, as an association list in
insertion order. -/
abbrev Table : Type := List (String × String)

/-- Dict read `d[k]` / `k in d`: value at the first occurrence of key `k`. -/
def lookup : Table → String → Option String
  | [], _ => none
  | (k, v) :: t, key => if k = key then some v else lookup t key

/-- Dict write `d[k] = v`: overwrite the (unique) existing entry in place,
or append a new entry at the end. -/
def dinsert : Table → String → String → Table
  | [], k, v => [(k, v)]
  | (k0, v0) :: t, k, v =>
      if k0 = k then (k, v) :: t else (k0, v0) :: dinsert t k v

/-- The key list of a table, in order. -/
def keys (t : Table) : List String := t.map Prod.fst

/-- Decimal digit value of a character, `none` if it is not a digit. -/
def decDigit (c : Char) : Option Nat :=
  if '0' ≤ c ∧ c ≤ '9' then some (c.toNat - '0'.toNat)
  else none

/-- Hexadecimal digit value of a character (tokens are lowercased before
parsing, but uppercase digits are accepted like Python does). -/
def hexDigit (c : Char) : Option Nat :=
  if '0' ≤ c ∧ c ≤ '9' then some (c.toNat - '0'.toNat)
  else if 'a' ≤ c ∧ c ≤ 'f' then some (c.toNat - 'a'.toNat + 10)
  else if 'A' ≤ c ∧ c ≤ 'F' then some (c.toNat - 'A'.toNat + 10)
  else none

/-- Accumulate digit values in the given base; any non-digit character makes
the whole parse fail. -/
def parseDigits (base : Nat) (dig : Char → Option Nat) (cs : List Char) :
    Option Nat :=
  cs.foldl (fun acc c => acc.bind fun a => (dig c).map fun d => base * a + d)
    (some 0)

/-- Python `int(s)` on an unsigned numeral: all characters must be decimal
digits and the string nonempty, otherwise a ValueError is raised (`none`).
(The sign/whitespace/underscore extensions of `int` are not exercised by any
assembler input modelled here.) -/
def parseDec (s : String) : Option Nat :=
  if s.toList.isEmpty then none else parseDigits 10 decDigit s.toList

/-- Python `int(s, 16)` on an unsigned hexadecimal numeral. -/
def parseHex (s : String) : Option Nat :=
  if s.toList.isEmpty then none else parseDigits 16 hexDigit s.toList

/-- Fuel-driven core of the binary renderer: the digit list of `n` in base 2,
most significant digit first, pushed onto `acc`.  Mirrors what Python's
`"{:b}".format(n)` produces for a nonnegative `n`. -/
def binCharsCore : Nat → Nat → List Char → List Char
  | 0, _, acc => acc
  | fuel + 1, n, acc =>
      if n < 2 then Nat.digitChar n :: acc
      else binCharsCore fuel (n / 2) (Nat.digitChar (n % 2) :: acc)

/-- Python `"{:b}".format(n)` for `n ≥ 0`: binary digits without leading
zeros, and `"0"` for zero. -/
def natToBin (n : Nat) : String := String.mk (binCharsCore (n + 1) n [])

/-- Python `str.zfill`: left-pad with zeros up to width `w` (our strings are
unsigned numerals, so the sign handling of `zfill` never triggers). -/
def zfill (s : String) (w : Nat) : String :=
  if w ≤ s.length then s
  else String.mk (List.replicate (w - s.length) '0') ++ s

/-- `__format2bin` applied to an already-parsed number: render in binary and
zero-fill to `bits`. -/
def format2binN (n : Nat) (bits : Nat) : String := zfill (natToBin n) bits

/-- `__format2bin(num, numformat, format_bits)`: parse `num` in the stated
base and render; an unsupported format raises (`none`). -/
def format2bin (num numformat : String) (format_bits : Nat) : Option String :=
  if numformat = "dec" then (parseDec num).map fun n => format2binN n format_bits
  else if numformat = "hex" then (parseHex num).map fun n => format2binN n format_bits
  else none

/-- `__islabel`: the token ends with a comma (`string.endswith(',')`). -/
def islabel (s : String) : Bool := s.toList.getLast? = some ','

/-- Python `string[:-1]`: all characters but the last. -/
def dropLastChar (s : String) : String := String.mk s.toList.dropLast

/-- `string.startswith('/')`: the first character is the comment marker. -/
def startsSlash (t : String) : Bool := t.toList.head? = some '/'

/-- `__rm_comments` on one line: drop everything from the first token that
starts with the comment marker. -/
def rm_line (l : Line) : Line :=
  List.takeWhile (fun t => ¬ startsSlash t) l

/-- `__rm_comments` over the whole program. -/
def rm_comments (asm : List Line) : List Line := asm.map rm_line

/-- The address key under which a line is stored / a label is recorded:
`__format2bin(str(lc), "dec", 12)` (note `int(str(lc)) = lc`, so the
str/int round trip is collapsed). -/
def lc12 (lc : Nat) : String := format2binN lc 12

/-- `__first_pass`, with the symbol table threaded explicitly.
`line[0]` on an empty line raises IndexError (`none`); a label line records
the comma-stripped token at the current counter and still falls through to
the `lc += 1`; `org` reparses its operand as hex and skips the increment;
`end` stops the scan. -/
def first_pass_aux : List Line → Table → Nat → Option Table
  | [], st, _ => some st
  | l :: rest, st, lc =>
      match l.head? with
      | none => none
      | some t0 =>
          if islabel t0 then
            first_pass_aux rest (dinsert st (dropLastChar t0) (lc12 lc)) (lc + 1)
          else if t0 = "org" then
            ((l.get? 1).bind parseHex).bind fun v => first_pass_aux rest st v
          else if t0 = "end" then some st
          else first_pass_aux rest st (lc + 1)

/-- `__first_pass` from the initial state (empty table, counter 0). -/
def first_pass (lines : List Line) : Option Table := first_pass_aux lines [] 0

/-- The classification chain in the body of `__second_pass` (lines 114-135 of
`assembler.py`): compute the instruction word for one non-directive line.
The branch order is exactly the source order; in particular `line[1]` is
read (and can raise IndexError) before the input/output table is consulted,
and when no branch matches the initial empty `instruction` string survives. -/
def encode_line (mri rri ioi st : Table) (l : Line) : Option String :=
  match l.head? with
  | none => none
  | some t0 =>
      match lookup mri t0 with
      | some code =>
          match l.get? 1 with
          | none => none
          | some opnd =>
              match lookup st opnd with
              | none => none
              | some address => some ("0" ++ code ++ address)
      | none =>
          match lookup rri t0 with
          | some code => some code
          | none =>
              match l.get? 1 with
              | none => none
              | some t1 =>
                  match lookup rri t1 with
                  | some code => some code
                  | none =>
                      match lookup ioi t0 with
                      | some code => some code
                      | none =>
                          if t1 = "hex" then
                            match l.get? 2 with
                            | none => none
                            | some t2 => format2bin t2 "hex" 16
                          else if t1 = "dec" then
                            match l.get? 2 with
                            | none => none
                            | some t2 => format2bin t2 "dec" 16
                          else some ""

/-- `__second_pass`, with the output dict threaded explicitly: `org` resets
the counter, `end` stops, and every other line stores its encoded word under
the rendered current counter and increments. -/
def second_pass_aux (mri rri ioi st : Table) :
    List Line → Nat → Table → Option Table
  | [], _, bin => some bin
  | l :: rest, lc, bin =>
      match l.head? with
      | none => none
      | some t0 =>
          if t0 = "org" then
            ((l.get? 1).bind parseHex).bind fun v =>
              second_pass_aux mri rri ioi st rest v bin
          else if t0 = "end" then some bin
          else
            (encode_line mri rri ioi st l).bind fun w =>
              second_pass_aux mri rri ioi st rest (lc + 1)
                (dinsert bin (lc12 lc) w)

/-- `__second_pass` from the initial state (counter 0, empty output dict). -/
def second_pass (mri rri ioi st : Table) (lines : List Line) : Option Table :=
  second_pass_aux mri rri ioi st lines 0 []

/-- The location-counter progression of Pass 1 over a prefix of lines:
`some` of the counter after the prefix when control flows past it, `none`
when the prefix crashes or stops at an `end` line. -/
def pass1lcAfter : List Line → Nat → Option Nat
  | [], lc => some lc
  | l :: rest, lc =>
      match l.head? with
      | none => none
      | some t0 =>
          if islabel t0 then pass1lcAfter rest (lc + 1)
          else if t0 = "org" then
            ((l.get? 1).bind parseHex).bind fun v => pass1lcAfter rest v
          else if t0 = "end" then none
          else pass1lcAfter rest (lc + 1)

/-- The location-counter progression of Pass 2 over a prefix of lines, same
convention as `pass1lcAfter`. -/
def pass2lcAfter : List Line → Nat → Option Nat
  | [], lc => some lc
  | l :: rest, lc =>
      match l.head? with
      | none => none
      | some t0 =>
          if t0 = "org" then
            ((l.get? 1).bind parseHex).bind fun v => pass2lcAfter rest v
          else if t0 = "end" then none
          else pass2lcAfter rest (lc + 1)

/-- The sequence of rendered addresses Pass 2 stores to, starting from
counter `lc` (empty lines are charged an address here, but an actual run
crashes on them, so the discrepancy is unreachable under a success
hypothesis). -/
def addrsOf : List Line → Nat → List String
  | [], _ => []
  | l :: rest, lc =>
      match l.head? with
      | none => lc12 lc :: addrsOf rest (lc + 1)
      | some t0 =>
          if t0 = "org" then
            match (l.get? 1).bind parseHex with
            | none => []
            | some v => addrsOf rest v
          else if t0 = "end" then []
          else lc12 lc :: addrsOf rest (lc + 1)

/-- Number of instruction-bearing lines (neither `org` nor `end`) before the
first `end` directive. -/
def instrCount : List Line → Nat
  | [] => 0
  | l :: rest =>
      match l.head? with
      | none => instrCount rest + 1
      | some t0 =>
          if t0 = "org" then instrCount rest
          else if t0 = "end" then 0
          else instrCount rest + 1

/-! ## The opcode tables and program of the specification scenario -/

/-- Memory-reference table of the scenario. -/
def mriT : Table := [("lda", "010")]

/-- Register-reference table of the scenario. -/
def rriT : Table := [("cla", "1111100000000000")]

/-- Input/output table of the scenario. -/
def ioiT : Table := [("hlt", "1111100000000001")]

/-- The tokenized scenario program. -/
def scenario : List Line :=
  [["org", "0"], ["cla"], ["lda", "x"], ["hlt"], ["x,", "dec", "5"], ["end"]]

/-! ## Dictionary lemmas -/

theorem lookup_dinsert_self (t : Table) (k v : String) :
    lookup (dinsert t k v) k = some v := by
  induction t with
  | nil => simp [dinsert, lookup]
  | cons p t ih =>
      obtain ⟨k0, v0⟩ := p
      by_cases h : k0 = k
      · simp [dinsert, h, lookup]
      · simp [dinsert, h, lookup, ih]

theorem lookup_dinsert_ne (t : Table) (k v key : String) (h : key ≠ k) :
    lookup (dinsert t k v) key = lookup t key := by
  induction t with
  | nil => simp [dinsert, lookup, Ne.symm h]
  | cons p t ih =>
      obtain ⟨k0, v0⟩ := p
      by_cases h0 : k0 = k
      · subst h0
        simp [dinsert, lookup, Ne.symm h]
      · by_cases h1 : k0 = key
        · subst h1
          simp [dinsert, h0, lookup]
        · simp [dinsert, h0, lookup, h1, ih]

theorem keys_dinsert (t : Table) (k v : String) :
    keys (dinsert t k v) = if k ∈ keys t then keys t else keys t ++ [k] := by
  induction t with
  | nil => simp [dinsert, keys]
  | cons p t ih =>
      obtain ⟨k0, v0⟩ := p
      by_cases h : k0 = k
      · subst h
        simp [dinsert, keys]
      · simp only [dinsert, if_neg h, keys, List.map_cons]
        rw [show keys (dinsert t k v) = List.map Prod.fst (dinsert t k v) from rfl] at ih
        rw [ih]
        by_cases hm : k ∈ List.map Prod.fst t
        · simp [keys, hm, Ne.symm h]
        · simp [keys, hm, Ne.symm h]

theorem mem_keys_dinsert (t : Table) (k v a : String) :
    a ∈ keys (dinsert t k v) ↔ a = k ∨ a ∈ keys t := by
  rw [keys_dinsert]
  by_cases hm : k ∈ keys t
  · simp only [if_pos hm]
    constructor
    · exact fun h => Or.inr h
    · rintro (rfl | h)
      · exact hm
      · exact h
  · simp [if_neg hm, or_comm]

theorem keys_dinsert_nodup (t : Table) (k v : String)
    (h : (keys t).Nodup) : (keys (dinsert t k v)).Nodup := by
  rw [keys_dinsert]
  by_cases hm : k ∈ keys t
  · simpa [if_pos hm] using h
  · simp only [if_neg hm]
    simpa [List.nodup_append] using ⟨h, hm⟩

theorem toFinset_keys_dinsert (t : Table) (k v : String) :
    (keys (dinsert t k v)).toFinset = insert k (keys t).toFinset := by
  rw [keys_dinsert]
  by_cases hm : k ∈ keys t
  · rw [if_pos hm]
    have : k ∈ (keys t).toFinset := List.mem_toFinset.mpr hm
    simp [Finset.insert_eq_self.mpr this]
  · rw [if_neg hm]
    simp [List.toFinset_append, Finset.union_comm, Finset.insert_eq]

/-! ## Length of the binary rendering -/

theorem binCharsCore_length (fuel : Nat) :
    ∀ n acc, Nat.log2 n + 1 ≤ fuel →
      (binCharsCore fuel n acc).length = (Nat.log2 n + 1) + acc.length := by
  induction fuel with
  | zero => intro n acc h; omega
  | succ fuel ih =>
      intro n acc h
      by_cases hn : n < 2
      · have hl : Nat.log2 n = 0 := by
          rw [Nat.log2]
          simp [Nat.not_le.mpr hn]
        simp [binCharsCore, hn, hl]
        omega
      · have hl : Nat.log2 n = Nat.log2 (n / 2) + 1 := by
          rw [Nat.log2]
          simp [Nat.not_lt.mp hn]
        have hfuel : Nat.log2 (n / 2) + 1 ≤ fuel := by omega
        have := ih (n / 2) (Nat.digitChar (n % 2) :: acc) hfuel
        simp only [binCharsCore, if_neg hn, this, List.length_cons]
        omega

theorem natToBin_length (n : Nat) :
    (natToBin n).length = Nat.log2 n + 1 := by
  have h : Nat.log2 n + 1 ≤ n + 1 := by
    have := Nat.log2_le_self n
    omega
  have := binCharsCore_length (n + 1) n [] h
  simpa [natToBin, String.length] using this

theorem zfill_length (s : String) (w : Nat) :
    (zfill s w).length = max w s.length := by
  by_cases h : w ≤ s.length
  · simp [zfill, h, Nat.max_eq_right h]
  · have hlt : s.length < w := Nat.not_le.mp h
    simp only [zfill, if_neg h]
    rw [Nat.max_eq_left (Nat.le_of_lt hlt)]
    rw [String.length_append]
    simp only [String.length_mk, List.length_replicate]
    omega

theorem format2binN_length (n bits : Nat) :
    (format2binN n bits).length = max bits (Nat.log2 n + 1) := by
  rw [format2binN, zfill_length, natToBin_length]

/-! ## Location-counter lemmas -/

theorem islabel_org : islabel "org" = false := by decide

theorem islabel_end : islabel "end" = false := by decide

/-- Pass 1 and Pass 2 advance, reset and stop the location counter under
exactly the same conditions. -/
theorem lcAfter_agree :
    ∀ (lines : List Line) (lc : Nat),
      pass1lcAfter lines lc = pass2lcAfter lines lc := by
  intro lines
  induction lines with
  | nil => intro lc; rfl
  | cons l rest ih =>
      intro lc
      cases hl : l.head? with
      | none => simp [pass1lcAfter, pass2lcAfter, hl]
      | some t0 =>
          by_cases hlab : islabel t0 = true
          · have horg : t0 ≠ "org" := by
              rintro rfl; rw [islabel_org] at hlab; cases hlab
            have hend : t0 ≠ "end" := by
              rintro rfl; rw [islabel_end] at hlab; cases hlab
            simp [pass1lcAfter, pass2lcAfter, hl, hlab, horg, hend, ih]
          · simp only [pass1lcAfter, pass2lcAfter, hl, hlab, if_false,
              Bool.false_eq_true]
            by_cases horg : t0 = "org"
            · simp only [horg, if_true]
              cases hv : (l.get? 1).bind parseHex with
              | none => rfl
              | some v => simp [ih]
            · by_cases hend : t0 = "end"
              · simp [horg, hend]
              · simp [horg, hend, ih]

/-- A body of lines that never defines `label` leaves the symbol-table entry
of `label` unchanged. -/
theorem first_pass_aux_preserves (label : String) :
    ∀ (post : List Line) (st0 st : Table) (lc : Nat),
      (∀ l ∈ post, ∀ t, l.head? = some t → islabel t = true →
        dropLastChar t ≠ label) →
      first_pass_aux post st0 lc = some st →
      lookup st label = lookup st0 label := by
  intro post
  induction post with
  | nil =>
      intro st0 st lc _ h
      cases h; rfl
  | cons l rest ih =>
      intro st0 st lc hno h
      have hrest : ∀ l ∈ rest, ∀ t, l.head? = some t → islabel t = true →
          dropLastChar t ≠ label :=
        fun l' hl' => hno l' (List.mem_cons_of_mem _ hl')
      cases hl : l.head? with
      | none => simp [first_pass_aux, hl] at h
      | some t0 =>
          by_cases hlab : islabel t0 = true
          · simp only [first_pass_aux, hl, hlab, if_true] at h
            have hne : dropLastChar t0 ≠ label :=
              hno l (List.mem_cons_self _ _) t0 hl hlab
            rw [ih _ _ _ hrest h, lookup_dinsert_ne _ _ _ _ (Ne.symm hne)]
          · by_cases horg : t0 = "org"
            · subst horg
              simp only [first_pass_aux, hl, hlab, islabel_org,
                Bool.false_eq_true, if_false, if_true] at h
              cases hv : (l.get? 1).bind parseHex with
              | none => rw [hv] at h; simp at h
              | some v =>
                  rw [hv, Option.some_bind] at h
                  exact ih _ _ _ hrest h
            · by_cases hend : t0 = "end"
              · subst hend
                simp only [first_pass_aux, hl, hlab, horg,
                  Bool.false_eq_true, if_false, if_true,
                  Option.some.injEq] at h
                subst h; rfl
              · simp only [first_pass_aux, hl, hlab, horg, hend,
                  Bool.false_eq_true, if_false] at h
                exact ih _ _ _ hrest h

/-- Pass 1 records a label at the rendered location counter of its
definition line: if no line after the definition redefines `label`, the
final symbol table maps `label` to `lc12` of the Pass-1 counter value
reached at the definition line. -/
theorem first_pass_records (label tok : String) (defLine : Line)
    (htok : defLine.head? = some tok) (hlabtok : islabel tok = true)
    (hstrip : dropLastChar tok = label) :
    ∀ (pre : List Line) (post : List Line) (st0 st : Table) (lc lc1 : Nat),
      (∀ l ∈ pre, l.head? ≠ some "end") →
      (∀ l ∈ post, ∀ t, l.head? = some t → islabel t = true →
        dropLastChar t ≠ label) →
      pass1lcAfter pre lc = some lc1 →
      first_pass_aux (pre ++ defLine :: post) st0 lc = some st →
      lookup st label = some (lc12 lc1) := by
  intro pre
  induction pre with
  | nil =>
      intro post st0 st lc lc1 _ hpost hlc h
      cases hlc
      rw [List.nil_append] at h
      simp only [first_pass_aux, htok, hlabtok, if_true, hstrip] at h
      rw [first_pass_aux_preserves label _ _ _ _ hpost h,
        lookup_dinsert_self]
  | cons l pre ih =>
      intro post st0 st lc lc1 hpre hpost hlc h
      have hpre' : ∀ l ∈ pre, l.head? ≠ some "end" :=
        fun l' hl' => hpre l' (List.mem_cons_of_mem _ hl')
      cases hl : l.head? with
      | none => simp [pass1lcAfter, hl] at hlc
      | some t0 =>
          by_cases hlab : islabel t0 = true
          · simp only [pass1lcAfter, hl, hlab, if_true] at hlc
            rw [List.cons_append] at h
            simp only [first_pass_aux, hl, hlab, if_true] at h
            exact ih post _ _ _ _ hpre' hpost hlc h
          · by_cases horg : t0 = "org"
            · subst horg
              simp only [pass1lcAfter, hl, hlab, islabel_org,
                Bool.false_eq_true, if_false, if_true] at hlc
              rw [List.cons_append] at h
              simp only [first_pass_aux, hl, hlab, islabel_org,
                Bool.false_eq_true, if_false, if_true] at h
              cases hv : (l.get? 1).bind parseHex with
              | none => rw [hv] at hlc; simp at hlc
              | some v =>
                  rw [hv, Option.some_bind] at hlc h
                  exact ih post _ _ _ _ hpre' hpost hlc h
            · have hend : t0 ≠ "end" := by
                intro he
                exact hpre l (List.mem_cons_self _ _) (he ▸ hl)
              simp only [pass1lcAfter, hl, hlab, horg, hend,
                Bool.false_eq_true, if_false] at hlc
              rw [List.cons_append] at h
              simp only [first_pass_aux, hl, hlab, horg, hend,
                Bool.false_eq_true, if_false] at h
              exact ih post _ _ _ _ hpre' hpost hlc h

/-- Entries of the output dict at addresses a suffix of Pass 2 never writes
to are untouched by that suffix. -/
theorem second_pass_aux_preserves (mri rri ioi st : Table) (key : String) :
    ∀ (lines : List Line) (lc : Nat) (bin out : Table),
      second_pass_aux mri rri ioi st lines lc bin = some out →
      key ∉ addrsOf lines lc →
      lookup out key = lookup bin key := by
  intro lines
  induction lines with
  | nil => intro lc bin out h _; cases h; rfl
  | cons l rest ih =>
      intro lc bin out h hk
      cases hl : l.head? with
      | none => simp [second_pass_aux, hl] at h
      | some t0 =>
          by_cases horg : t0 = "org"
          · subst horg
            simp only [second_pass_aux, hl, if_true] at h
            simp only [addrsOf, hl, if_true] at hk
            cases hv : (l.get? 1).bind parseHex with
            | none => rw [hv] at h; simp at h
            | some v =>
                rw [hv, Option.some_bind] at h
                rw [hv] at hk
                exact ih _ _ _ h hk
          · by_cases hend : t0 = "end"
            · subst hend
              simp [second_pass_aux, hl, horg] at h
              subst h; rfl
            · simp only [second_pass_aux, hl, horg, hend,
                Bool.false_eq_true, if_false] at h
              simp only [addrsOf, hl, horg, hend, if_false,
                List.mem_cons, not_or] at hk
              cases he : encode_line mri rri ioi st l with
              | none => rw [he] at h; simp at h
              | some w =>
                  rw [he, Option.some_bind] at h
                  rw [ih _ _ _ h hk.2, lookup_dinsert_ne _ _ _ _ hk.1]

/-- If Pass 2 reaches a memory-reference line whose operand is in the symbol
table, it stores the word direct-bit ++ opcode ++ resolved address at the
rendered counter of that line; if no later line writes to the same address,
that is also the final value there. -/
theorem second_pass_aux_emits (mri rri ioi st : Table) (m op code addr : String)
    (ops : List String)
    (hmri : lookup mri m = some code) (horgm : m ≠ "org") (hendm : m ≠ "end")
    (hst : lookup st op = some addr) :
    ∀ (pre : List Line) (post : List Line) (lc lc2 : Nat) (bin out : Table),
      (∀ l ∈ pre, l.head? ≠ some "end") →
      pass2lcAfter pre lc = some lc2 →
      lc12 lc2 ∉ addrsOf post (lc2 + 1) →
      second_pass_aux mri rri ioi st (pre ++ (m :: op :: ops : Line) :: post)
        lc bin = some out →
      lookup out (lc12 lc2) = some ("0" ++ code ++ addr) := by
  have he : encode_line mri rri ioi st (m :: op :: ops : Line)
      = some ("0" ++ code ++ addr) := by
    simp [encode_line, hmri, hst]
  intro pre
  induction pre with
  | nil =>
      intro post lc lc2 bin out _ hlc hcol h
      cases hlc
      rw [List.nil_append] at h
      simp only [second_pass_aux, List.head?_cons, horgm, hendm,
        Bool.false_eq_true, if_false] at h
      rw [he, Option.some_bind] at h
      rw [second_pass_aux_preserves _ _ _ _ _ _ _ _ _ h hcol,
        lookup_dinsert_self]
  | cons l pre ih =>
      intro post lc lc2 bin out hpre hlc hcol h
      have hpre' : ∀ l ∈ pre, l.head? ≠ some "end" :=
        fun l' hl' => hpre l' (List.mem_cons_of_mem _ hl')
      cases hl : l.head? with
      | none => simp [pass2lcAfter, hl] at hlc
      | some t0 =>
          by_cases horg : t0 = "org"
          · subst horg
            simp only [pass2lcAfter, hl, if_true] at hlc
            rw [List.cons_append] at h
            simp only [second_pass_aux, hl, if_true] at h
            cases hv : (l.get? 1).bind parseHex with
            | none => rw [hv] at hlc; simp at hlc
            | some v =>
                rw [hv, Option.some_bind] at hlc h
                exact ih post _ _ _ _ hpre' hlc hcol h
          · have hend : t0 ≠ "end" := by
              intro hee
              exact hpre l (List.mem_cons_self _ _) (hee ▸ hl)
            simp only [pass2lcAfter, hl, horg, hend,
              Bool.false_eq_true, if_false] at hlc
            rw [List.cons_append] at h
            simp only [second_pass_aux, hl, horg, hend,
              Bool.false_eq_true, if_false] at h
            cases he2 : encode_line mri rri ioi st l with
            | none => rw [he2] at h; simp at h
            | some w =>
                rw [he2, Option.some_bind] at h
                exact ih post _ _ _ _ hpre' hlc hcol h

/-- If Pass 2 reaches (no earlier `end`) a memory-reference line whose
operand is not in the symbol table, the whole pass raises (returns `none`),
whatever happened before. -/
theorem second_pass_aux_fails (mri rri ioi st : Table) (bad : Line)
    (m op : String)
    (hm : bad.head? = some m) (horgm : m ≠ "org") (hendm : m ≠ "end")
    (hmri : (lookup mri m).isSome = true) (hop : bad.get? 1 = some op)
    (hst : lookup st op = none) :
    ∀ (pre : List Line) (post : List Line) (lc : Nat) (bin : Table),
      (∀ l ∈ pre, l.head? ≠ some "end") →
      second_pass_aux mri rri ioi st (pre ++ bad :: post) lc bin = none := by
  obtain ⟨code, hcode⟩ := Option.isSome_iff_exists.mp hmri
  have hop' : bad[1]? = some op := by
    rw [List.get?_eq_getElem?] at hop
    exact hop
  have he : encode_line mri rri ioi st bad = none := by
    simp [encode_line, hm, hcode, hop, hop', hst]
  intro pre
  induction pre with
  | nil =>
      intro post lc bin _
      rw [List.nil_append]
      simp [second_pass_aux, hm, horgm, hendm, he]
  | cons l pre ih =>
      intro post lc bin hpre
      have hpre' : ∀ l ∈ pre, l.head? ≠ some "end" :=
        fun l' hl' => hpre l' (List.mem_cons_of_mem _ hl')
      rw [List.cons_append]
      cases hl : l.head? with
      | none => simp [second_pass_aux, hl]
      | some t0 =>
          by_cases horg : t0 = "org"
          · subst horg
            simp only [second_pass_aux, hl, if_true]
            cases hv : (l.get? 1).bind parseHex with
            | none => simp
            | some v =>
                rw [Option.some_bind]
                exact ih post _ _ hpre'
          · have hend : t0 ≠ "end" := by
              intro hee
              exact hpre l (List.mem_cons_self _ _) (hee ▸ hl)
            simp only [second_pass_aux, hl, horg, hend,
              Bool.false_eq_true, if_false]
            cases he2 : encode_line mri rri ioi st l with
            | none => simp
            | some w =>
                rw [Option.some_bind]
                exact ih post _ _ hpre'

/-- Key-set bookkeeping for Pass 2: on success, the final output dict has
the keys of the starting dict together with every rendered address of the
remaining lines; distinct keys stay distinct, and the emitted address list
has one entry per instruction-bearing line. -/
theorem second_pass_aux_keys (mri rri ioi st : Table) :
    ∀ (lines : List Line) (lc : Nat) (bin out : Table),
      second_pass_aux mri rri ioi st lines lc bin = some out →
      (keys out).toFinset = (keys bin).toFinset ∪ (addrsOf lines lc).toFinset ∧
      ((keys bin).Nodup → (keys out).Nodup) ∧
      (addrsOf lines lc).length = instrCount lines := by
  intro lines
  induction lines with
  | nil =>
      intro lc bin out h
      cases h
      simp [addrsOf, instrCount]
  | cons l rest ih =>
      intro lc bin out h
      cases hl : l.head? with
      | none => simp [second_pass_aux, hl] at h
      | some t0 =>
          by_cases horg : t0 = "org"
          · subst horg
            simp only [second_pass_aux, hl, if_true] at h
            cases hv : (l.get? 1).bind parseHex with
            | none => rw [hv] at h; simp at h
            | some v =>
                rw [hv, Option.some_bind] at h
                have hih := ih _ _ _ h
                simp only [addrsOf, instrCount, hl, if_true]
                rw [hv]
                exact hih
          · by_cases hend : t0 = "end"
            · subst hend
              simp [second_pass_aux, hl, horg] at h
              subst h
              simp [addrsOf, instrCount, hl, horg]
            · simp only [second_pass_aux, hl, horg, hend,
                Bool.false_eq_true, if_false] at h
              cases he : encode_line mri rri ioi st l with
              | none => rw [he] at h; simp at h
              | some w =>
                  rw [he, Option.some_bind] at h
                  obtain ⟨h1, h2, h3⟩ := ih _ _ _ h
                  refine ⟨?_, ?_, ?_⟩
                  · rw [h1, toFinset_keys_dinsert]
                    simp only [addrsOf, hl, horg, hend, if_false,
                      Bool.false_eq_true, List.toFinset_cons]
                    rw [Finset.insert_union, Finset.union_insert]
                  · intro hn
                    exact h2 (keys_dinsert_nodup _ _ _ hn)
                  · simp only [addrsOf, instrCount, hl, horg, hend, if_false,
                      Bool.false_eq_true, List.length_cons]
                    rw [h3]

/-! ## Claim theorems -/

/-- C1: the spec expects the scenario program to assemble to a four-entry
mapping.  Pass 1 does record the symbol table `x → 000000000011` exactly as
claimed, but Pass 2 raises an IndexError on the single-token line `hlt`
(the second-token register-reference check reads `line[1]` before the
input/output table is consulted), so `assemble` never returns the claimed
mapping: the code contradicts the specified golden scenario. -/
theorem c1_scenario_code_bug :
    first_pass scenario = some [("x", "000000000011")] ∧
    second_pass mriT rriT ioiT [("x", "000000000011")] scenario = none := by
  constructor
  · rfl
  · rfl

/-- C2: the claim says a line whose first token is only in the input/output
table gets that table's code verbatim, in particular a line consisting of a
single input/output mnemonic.  For the single-token line the code instead
raises an IndexError reading `line[1]` before it ever consults the
input/output table, so Pass 2 crashes on `["hlt"]` although `hlt` is in the
input/output table and in no other table. -/
theorem c2_ioi_single_token_code_bug :
    lookup mriT "hlt" = none ∧ lookup rriT "hlt" = none ∧
    lookup ioiT "hlt" = some "1111100000000001" ∧
    second_pass mriT rriT ioiT [] [["hlt"]] = none := by
  refine ⟨rfl, rfl, rfl, rfl⟩

/-- C3: the claim requires an undefined mnemonic to be a fatal error.  The
code instead leaves `instruction` as the initial empty string and silently
stores it: on the two-token line `foo bar`, which matches none of the six
classification rules, Pass 2 returns a mapping holding the empty
instruction word. -/
theorem c3_unmatched_silent_empty_code_bug :
    encode_line mriT rriT ioiT [] ["foo", "bar"] = some "" ∧
    second_pass mriT rriT ioiT [] [["foo", "bar"]] =
      some [("000000000000", "")] := by
  exact ⟨rfl, rfl⟩

/-- C4: the claim requires a line that is empty after comment removal to be
a harmless no-op for both passes.  The code reads `line[0]` unconditionally,
so both passes raise an IndexError on the empty token list produced by
stripping a comment-only line. -/
theorem c4_empty_line_code_bug :
    rm_comments [["/comment", "text"]] = [[]] ∧
    first_pass (rm_comments [["/comment", "text"]]) = none ∧
    second_pass mriT rriT ioiT [] (rm_comments [["/comment", "text"]]) =
      none := by
  refine ⟨rfl, rfl, rfl⟩

/-- C5 counterexample: an `org` that rewinds the counter makes two
instruction-bearing lines share address 0, so the returned mapping has one
entry although the program has two instruction-bearing lines before `end` —
the claim as stated is false. -/
theorem c5_counterexample :
    instrCount [["org", "0"], ["cla"], ["org", "0"], ["cla"], ["end"]] = 2 ∧
    second_pass mriT rriT ioiT []
        [["org", "0"], ["cla"], ["org", "0"], ["cla"], ["end"]] =
      some [("000000000000", "1111100000000000")] := by
  exact ⟨rfl, rfl⟩

/-- C5 (amended): for every program on which Pass 2 returns an output
mapping, if the rendered addresses of its instruction-bearing lines are
pairwise distinct (no `org` rewind lands two lines on one address), the
mapping has exactly as many entries as there are instruction-bearing lines
(neither `org` nor `end`) before the `end` directive. -/
theorem c5_entry_count (mri rri ioi st : Table) (lines : List Line)
    (out : Table)
    (h : second_pass mri rri ioi st lines = some out)
    (hnd : (addrsOf lines 0).Nodup) :
    out.length = instrCount lines := by
  obtain ⟨h1, h2, h3⟩ := second_pass_aux_keys mri rri ioi st lines 0 [] out h
  have hkn : (keys out).Nodup := h2 (by simp [keys])
  have hset : (keys out).toFinset = (addrsOf lines 0).toFinset := by
    simpa [keys] using h1
  calc out.length = (keys out).length := (List.length_map _ _).symm
    _ = (keys out).toFinset.card := (List.toFinset_card_of_nodup hkn).symm
    _ = (addrsOf lines 0).toFinset.card := by rw [hset]
    _ = (addrsOf lines 0).length := List.toFinset_card_of_nodup hnd
    _ = instrCount lines := h3

/-- Witness for C5: a three-instruction program with distinct addresses
where the theorem yields the entry count 3. -/
theorem c5_entry_count_witness :
    (addrsOf [["org", "0"], ["cla"], ["lda", "x"], ["x,", "dec", "5"],
        ["end"]] 0).Nodup ∧
    ([("000000000000", "1111100000000000"),
      ("000000000001", "0010000000000010"),
      ("000000000010", "0000000000000101")] : Table).length =
      instrCount [["org", "0"], ["cla"], ["lda", "x"], ["x,", "dec", "5"],
        ["end"]] :=
  ⟨by decide,
   c5_entry_count mriT rriT ioiT [("x", "000000000010")] _ _ (by rfl)
     (by decide)⟩

/-- C6 counterexample: the claim says `__format2bin` always returns exactly
`width_bits` bits, truncating values that need more.  On value 4096 with
width 12 the code returns the untruncated 13-character string
`1000000000000`: `zfill` only pads, it never truncates. -/
theorem c6_counterexample :
    format2bin "4096" "dec" 12 = some "1000000000000" ∧
    ("1000000000000" : String).length = 13 := by
  exact ⟨rfl, rfl⟩

/-- C6 (amended): for every parsed value and every positive requested width,
`__format2bin` renders the value in binary zero-padded on the left; the
result has exactly `width_bits` bits when the value is representable in
`width_bits` bits, and otherwise is the full (unpadded) binary numeral,
which is strictly longer than `width_bits` — no truncation happens. -/
theorem c6_render_width (n bits : Nat) (hb : 0 < bits) :
    (∀ s, parseDec s = some n →
      format2bin s "dec" bits = some (format2binN n bits)) ∧
    (∀ s, parseHex s = some n →
      format2bin s "hex" bits = some (format2binN n bits)) ∧
    (n < 2 ^ bits → (format2binN n bits).length = bits) ∧
    (2 ^ bits ≤ n →
      format2binN n bits = natToBin n ∧ bits < (format2binN n bits).length) := by
  refine ⟨?_, ?_, ?_, ?_⟩
  · intro s hs; simp [format2bin, hs]
  · intro s hs; simp [format2bin, hs]
  · intro hlt
    rw [format2binN_length]
    have hle : Nat.log2 n + 1 ≤ bits := by
      by_cases hn : n = 0
      · subst hn
        simpa [Nat.log2_zero] using hb
      · have := (Nat.log2_lt hn).mpr hlt
        omega
    exact Nat.max_eq_left hle
  · intro hge
    have hn : n ≠ 0 := by
      have h1 : (1 : Nat) ≤ 2 ^ bits := Nat.one_le_two_pow
      omega
    have hlog : bits ≤ Nat.log2 n := (Nat.le_log2 hn).mpr hge
    have hself : format2binN n bits = natToBin n := by
      rw [format2binN, zfill, if_pos]
      rw [natToBin_length]
      omega
    refine ⟨hself, ?_⟩
    rw [format2binN_length]
    have hx : bits < Nat.log2 n + 1 := by omega
    exact lt_of_lt_of_le hx (Nat.le_max_right _ _)

/-- Witness for C6: rendering 5 in width 12 gives exactly 12 bits, rendering
4096 in width 12 overflows to 13 bits. -/
theorem c6_render_width_witness :
    format2bin "5" "dec" 12 = some (format2binN 5 12) ∧
    (format2binN 5 12).length = 12 ∧
    12 < (format2binN 4096 12).length :=
  ⟨(c6_render_width 5 12 (by decide)).1 "5" (by decide),
   (c6_render_width 5 12 (by decide)).2.2.1 (by decide),
   ((c6_render_width 4096 12 (by decide)).2.2.2 (by decide)).2⟩

/-- C7: if a memory-reference instruction line whose operand label is absent
from the Pass-1 symbol table is reached by Pass 2 (no earlier `end`
directive), the whole pass raises the KeyError (`none`) instead of
returning an output mapping: assembly of the whole program is aborted. -/
theorem c7_undefined_symbol_aborts (mri rri ioi st : Table) (bad : Line)
    (pre post : List Line) (m op : String)
    (hm : bad.head? = some m) (horgm : m ≠ "org") (hendm : m ≠ "end")
    (hmri : (lookup mri m).isSome = true) (hop : bad.get? 1 = some op)
    (hst : lookup st op = none)
    (hpre : ∀ l ∈ pre, l.head? ≠ some "end") :
    second_pass mri rri ioi st (pre ++ bad :: post) = none :=
  second_pass_aux_fails mri rri ioi st bad m op hm horgm hendm hmri hop hst
    pre post 0 [] hpre

/-- Witness for C7: with the scenario tables and an empty symbol table the
program `cla / lda y` fails to assemble. -/
theorem c7_undefined_symbol_aborts_witness :
    second_pass mriT rriT ioiT [] ([["cla"]] ++ ["lda", "y"] :: []) = none :=
  c7_undefined_symbol_aborts mriT rriT ioiT [] ["lda", "y"] [["cla"]] []
    "lda" "y" (by decide) (by decide) (by decide) (by decide) (by decide)
    (by decide) (by decide)

/-- C8: forward references resolve.  If a memory-reference line uses label
`op` whose defining line appears only later, Pass 1 records for `op` the
rendered 12-bit counter value of the definition line, and (provided no later
line overwrites the same output address) the word Pass 2 leaves at the
memory-reference line's address is the direct bit, the 3-bit opcode and
exactly that recorded address. -/
theorem c8_forward_reference (mri rri ioi st out : Table)
    (pre mid post : List Line) (m op code tok : String) (ops : List String)
    (defLine : Line) (lc1 lc2 : Nat)
    (hdef : defLine.head? = some tok) (hlabtok : islabel tok = true)
    (hstrip : dropLastChar tok = op)
    (hmri : lookup mri m = some code) (horgm : m ≠ "org") (hendm : m ≠ "end")
    (hnoend : ∀ l ∈ pre ++ (m :: op :: ops : Line) :: mid,
      l.head? ≠ some "end")
    (hnoredef : ∀ l ∈ post, ∀ t, l.head? = some t → islabel t = true →
      dropLastChar t ≠ op)
    (hlc1 : pass1lcAfter (pre ++ (m :: op :: ops : Line) :: mid) 0 = some lc1)
    (hlc2 : pass2lcAfter pre 0 = some lc2)
    (hcol : lc12 lc2 ∉ addrsOf (mid ++ defLine :: post) (lc2 + 1))
    (h1 : first_pass (pre ++ (m :: op :: ops : Line) :: mid ++ defLine :: post)
      = some st)
    (h2 : second_pass mri rri ioi st
      (pre ++ (m :: op :: ops : Line) :: mid ++ defLine :: post) = some out) :
    lookup st op = some (lc12 lc1) ∧
    lookup out (lc12 lc2) = some ("0" ++ code ++ lc12 lc1) := by
  have hst : lookup st op = some (lc12 lc1) := by
    apply first_pass_records op tok defLine hdef hlabtok hstrip
      (pre ++ (m :: op :: ops : Line) :: mid) post [] st 0 lc1 hnoend
      hnoredef hlc1
    simpa [List.append_assoc] using h1
  refine ⟨hst, ?_⟩
  apply second_pass_aux_emits mri rri ioi st m op code (lc12 lc1) ops hmri
    horgm hendm hst pre (mid ++ defLine :: post) 0 lc2 [] out
    (fun l hl => hnoend l (List.mem_append_left _ hl)) hlc2 hcol
  simpa [second_pass, List.cons_append, List.append_assoc] using h2

/-- Witness for C8: in `org 0 / cla / lda x / x, dec 5` the label `x` is
defined after its use; Pass 1 records `x → 000000000010` and Pass 2 stores
`0 010 000000000010` at address `000000000001`. -/
theorem c8_forward_reference_witness :
    lookup [("x", "000000000010")] "x" = some (lc12 2) ∧
    lookup [("000000000000", "1111100000000000"),
            ("000000000001", "0010000000000010"),
            ("000000000010", "0000000000000101")] (lc12 1) =
      some ("0" ++ "010" ++ lc12 2) :=
  c8_forward_reference mriT rriT ioiT [("x", "000000000010")]
    [("000000000000", "1111100000000000"),
     ("000000000001", "0010000000000010"),
     ("000000000010", "0000000000000101")]
    [["org", "0"], ["cla"]] [] [] "lda" "x" "010" "x," []
    ["x,", "dec", "5"] 2 1
    (by decide) (by decide) (by decide) (by decide) (by decide) (by decide)
    (by decide) (by simp) (by decide) (by decide) (by decide) (by rfl)
    (by rfl)

/-- C9: Pass 1 and Pass 2 apply identical location-counter increment,
org-reset and end-termination rules: over every line sequence the two
counter progressions coincide, and consequently every label recorded by
Pass 1 carries the rendered Pass-2 counter value of its definition line. -/
theorem c9_counters_agree :
    (∀ (lines : List Line) (lc : Nat),
      pass1lcAfter lines lc = pass2lcAfter lines lc) ∧
    (∀ (pre post : List Line) (defLine : Line) (st : Table)
        (tok label : String) (lc1 : Nat),
      defLine.head? = some tok → islabel tok = true →
      dropLastChar tok = label →
      (∀ l ∈ pre, l.head? ≠ some "end") →
      (∀ l ∈ post, ∀ t, l.head? = some t → islabel t = true →
        dropLastChar t ≠ label) →
      pass2lcAfter pre 0 = some lc1 →
      first_pass (pre ++ defLine :: post) = some st →
      lookup st label = some (lc12 lc1)) := by
  refine ⟨lcAfter_agree, ?_⟩
  intro pre post defLine st tok label lc1 hdef hlab hstrip hpre hpost hlc h
  exact first_pass_records label tok defLine hdef hlab hstrip pre post [] st
    0 lc1 hpre hpost (by rw [lcAfter_agree]; exact hlc) h

/-- Witness for C9: on the scenario prefix before the definition of `x` the
Pass-2 counter is 3, and Pass 1 indeed records `x → lc12 3`. -/
theorem c9_counters_agree_witness :
    lookup [("x", "000000000011")] "x" = some (lc12 3) :=
  c9_counters_agree.2 [["org", "0"], ["cla"], ["lda", "x"], ["hlt"]] []
    ["x,", "dec", "5"] [("x", "000000000011")] "x," "x" 3
    (by decide) (by decide) (by decide) (by decide) (by simp) (by decide)
    (by rfl)

/-- C10: when an `org` directive rewinds the location counter so that two
instruction lines land on the same 12-bit address, Pass 2 raises no error
and the returned mapping holds a single entry for that address with the
word of the later line — dict assignment overwrites, last write wins. -/
theorem c10_org_rewind_last_write_wins (mri rri ioi st : Table)
    (a : String) (v : Nat) (l1 l2 : Line) (t1 t2 w1 w2 : String)
    (ha : parseHex a = some v)
    (h1h : l1.head? = some t1) (h1org : t1 ≠ "org") (h1end : t1 ≠ "end")
    (h2h : l2.head? = some t2) (h2org : t2 ≠ "org") (h2end : t2 ≠ "end")
    (he1 : encode_line mri rri ioi st l1 = some w1)
    (he2 : encode_line mri rri ioi st l2 = some w2) :
    second_pass mri rri ioi st [["org", a], l1, ["org", a], l2, ["end"]] =
      some [(lc12 v, w2)] := by
  simp [second_pass, second_pass_aux, ha, h1h, h1org, h1end, h2h, h2org,
    h2end, he1, he2, dinsert]

/-- Witness for C10: `org 0 / cla / org 0 / x, dec 7 / end` returns the
single entry `000000000000 → 0000000000000111`, the word of the later
line. -/
theorem c10_org_rewind_last_write_wins_witness :
    second_pass mriT rriT ioiT []
        [["org", "0"], ["cla"], ["org", "0"], ["x,", "dec", "7"], ["end"]] =
      some [(lc12 0, "0000000000000111")] :=
  c10_org_rewind_last_write_wins mriT rriT ioiT [] "0" 0 ["cla"]
    ["x,", "dec", "7"] "cla" "x," "1111100000000000" "0000000000000111"
    (by decide) (by decide) (by decide) (by decide) (by decide) (by decide)
    (by decide) (by decide) (by decide)
